import Mathlib

/-!
Verification development for the `rebel` (RSB) repository: a shallow
embedding of the variable-expansion engine (`src/context.rs`), the
line-oriented stream pipeline (`src/streams.rs`) and the job registry
(`src/os.rs`, `src/macros/jobs_events.rs`), together with theorems about
the properties those components are specified to satisfy.

Strings are modelled by Lean `String` (a packed `List Char`), and the two
regex passes of `Context::expand` are modelled by explicit left-to-right
scanners with exactly the match semantics of the Rust regexes
`\$\{([A-Za-z_][A-Za-z0-9_]*)\}` and `\$([A-Za-z_][A-Za-z0-9_]*)` under
`Regex::replace_all` (leftmost non-overlapping matches, replacement text
spliced into the output without being rescanned by that pass).
-/

namespace RSB

/-- The left-brace character, written via its code point. -/
def lbrace : Char := Char.ofNat 123

/-- The right-brace character, written via its code point. -/
def rbrace : Char := Char.ofNat 125

/-- Characters matching `[A-Za-z_]`, the first character of a variable name. -/
def isIdentStart (c : Char) : Bool := c.isAlpha || c = '_'

/-- Characters matching `[A-Za-z0-9_]`, the later characters of a variable name. -/
def isIdentChar (c : Char) : Bool := c.isAlphanum || c = '_'

/--
Attempt to parse, at the position just after a `$`, the remainder of a
braced token: `{name}` with `name` matching `[A-Za-z_][A-Za-z0-9_]*`.
On success returns the name together with the number of characters the
token occupies after the `$` (brace + name + brace).  This is exactly the
condition under which the Rust regex `\$\{([A-Za-z_][A-Za-z0-9_]*)\}`
matches at the position of the `$`.
-/
def dropBraced (l : List Char) : Option (String × Nat) :=
  match l with
  | c0 :: c :: rest1 =>
    if c0 = lbrace then
      if isIdentStart c then
        match rest1.dropWhile isIdentChar with
        | d :: _ =>
          if d = rbrace then
            some (String.mk (c :: rest1.takeWhile isIdentChar),
                  (rest1.takeWhile isIdentChar).length + 3)
          else none
        | [] => none
      else none
    else none
  | _ => none

/--
The braced pass of `Context::expand` (src/context.rs lines 46-52):
`replace_all` of `\$\{([A-Za-z_][A-Za-z0-9_]*)\}`, replacing each token by
the looked-up value (empty string when absent, already folded into
`lookup`).  The second argument is a skip counter used to step over the
characters of a token that was already consumed, keeping the recursion
structural; `bracedGo lookup l (n+1)` processes `l` with its first
character already consumed.
-/
def bracedGo (lookup : String → String) : List Char → Nat → List Char
  | [], _ => []
  | _ :: rest, skip+1 => bracedGo lookup rest skip
  | c :: rest, 0 =>
    if c = '$' then
      match dropBraced rest with
      | some (name, k) => (lookup name).data ++ bracedGo lookup rest k
      | none => '$' :: bracedGo lookup rest 0
    else c :: bracedGo lookup rest 0

/-- The braced (first) pass of `Context::expand` over a character list. -/
def bracedPass (lookup : String → String) (s : List Char) : List Char :=
  bracedGo lookup s 0

/--
Attempt to parse, at the position just after a `$`, a bare variable name
`[A-Za-z_][A-Za-z0-9_]*` (the maximal run of identifier characters).  On
success returns the name and the number of characters it occupies.  This
is exactly the condition under which the Rust regex
`\$([A-Za-z_][A-Za-z0-9_]*)` matches at the position of the `$`.
-/
def dropSimple (l : List Char) : Option (String × Nat) :=
  match l with
  | d :: rest1 =>
    if isIdentStart d then
      some (String.mk (d :: rest1.takeWhile isIdentChar),
            (rest1.takeWhile isIdentChar).length + 1)
    else none
  | [] => none

/--
The bare pass of `Context::expand` (src/context.rs lines 53-59):
`replace_all` of `\$([A-Za-z_][A-Za-z0-9_]*)`; the name is the maximal
run of identifier characters after the `$`.  The skip counter works as in
`bracedGo`.
-/
def simpleGo (lookup : String → String) : List Char → Nat → List Char
  | [], _ => []
  | _ :: rest, skip+1 => simpleGo lookup rest skip
  | c :: rest, 0 =>
    if c = '$' then
      match dropSimple rest with
      | some (name, k) => (lookup name).data ++ simpleGo lookup rest k
      | none => '$' :: simpleGo lookup rest 0
    else c :: simpleGo lookup rest 0

/-- The bare (second) pass of `Context::expand` over a character list. -/
def simplePass (lookup : String → String) (s : List Char) : List Char :=
  simpleGo lookup s 0

/-- The RSB context: a map from variable names to string values
(`Context` in src/context.rs; the `HashMap` is modelled by an association
list with unique keys). -/
structure Context where
  vars : List (String × String)

/-- `Context::get`: the value stored for a key, or the empty string when
the key is absent (src/context.rs lines 34-36; this is also the closure
used for both `replace_all` calls inside `expand`). -/
def Context.get (ctx : Context) (key : String) : String :=
  match ctx.vars.find? (fun p => p.1 == key) with
  | some p => p.2
  | none => ""

/-- `Context::expand` (src/context.rs lines 44-61): the braced pass runs
to completion over the whole input, then the bare pass runs to completion
over the braced pass's entire output, both reading the same map. -/
def Context.expand (ctx : Context) (text : String) : String :=
  String.mk (simplePass ctx.get (bracedPass ctx.get text.data))

/-! ## Stream pipeline (src/streams.rs) -/

/-- Substring test: whether `pat` occurs as a contiguous substring of
`s`, exactly Rust's `str::contains` with a string pattern (an empty
pattern always matches). -/
def containsSub (pat : List Char) : List Char → Bool
  | [] => pat.isEmpty
  | c :: rest => pat.isPrefixOf (c :: rest) || containsSub pat rest

/--
Core of Rust `str::replace` for a nonempty pattern: replace each
leftmost non-overlapping occurrence of `pat` by `to`, never rescanning
replacement text.  The skip counter steps over the already-consumed
characters of a matched occurrence, keeping the recursion structural.
-/
def replaceGo (pat tov : List Char) : List Char → Nat → List Char
  | [], _ => []
  | _ :: rest, skip+1 => replaceGo pat tov rest skip
  | c :: rest, 0 =>
    if pat.isPrefixOf (c :: rest) then tov ++ replaceGo pat tov rest (pat.length - 1)
    else c :: replaceGo pat tov rest 0

/-- Rust `str::replace`; with an empty pattern Rust inserts `to` at every
character boundary, including both ends. -/
def strReplace (s pat tov : String) : String :=
  if pat.data.isEmpty then
    String.mk (tov.data ++ s.data.flatMap (fun c => c :: tov.data))
  else
    String.mk (replaceGo pat.data tov.data s.data 0)

/-- Split a character list at every newline character; `n` newlines give
`n + 1` pieces (the underlying decomposition used by Rust `str::lines`). -/
def splitNL : List Char → List (List Char)
  | [] => [[]]
  | c :: rest =>
    if c = '\n' then [] :: splitNL rest
    else
      match splitNL rest with
      | p :: ps => (c :: p) :: ps
      | [] => [[c]]

/-- Remove one trailing carriage return, if present (Rust `str::lines`
strips a `\r` from a line that was terminated by `\r\n`). -/
def stripCR (l : List Char) : List Char :=
  if l.getLast? = some '\r' then l.dropLast else l

/--
Rust `str::lines`: pieces between `\n` characters; every piece that was
terminated by a `\n` has one trailing `\r` stripped; a final empty piece
(from a trailing newline, or an empty string) yields no line.
-/
def rustLines (s : List Char) : List (List Char) :=
  let ps := splitNL s
  let init := (ps.dropLast).map stripCR
  match ps.getLast? with
  | none => init
  | some last => if last = [] then init else init ++ [last]

/--
Core of Rust `str::split` with a nonempty string pattern: the pieces
between leftmost non-overlapping occurrences of `sep`.  Skip counter as
in `replaceGo`.
-/
def splitGo (sep : List Char) : List Char → Nat → List (List Char)
  | [], _ => [[]]
  | _ :: rest, skip+1 => splitGo sep rest skip
  | c :: rest, 0 =>
    if sep.isPrefixOf (c :: rest) then [] :: splitGo sep rest (sep.length - 1)
    else
      match splitGo sep rest 0 with
      | p :: ps => (c :: p) :: ps
      | [] => [[c]]

/-- Rust `str::split` with a string pattern; an empty pattern yields an
empty piece at every character boundary, including both ends. -/
def splitStr (sep : String) (s : String) : List String :=
  if sep.data.isEmpty then
    ([] :: s.data.map (fun c => [c]) ++ [[]]).map String.mk
  else
    (splitGo sep.data s.data 0).map String.mk

/-- Join strings with a single newline between consecutive elements
(Rust `Vec::join("\n")`). -/
def joinNL : List String → String
  | [] => ""
  | [l] => l
  | l :: l2 :: rest => l ++ "\n" ++ joinNL (l2 :: rest)

/-- `Stream` (src/streams.rs lines 10-13): an owned ordered sequence of
lines. -/
structure Stream where
  lines : List String

/-- `Stream::from_string` (src/streams.rs lines 24-28):
`content.lines()` collected into owned strings. -/
def Stream.from_string (content : String) : Stream :=
  ⟨(rustLines content.data).map String.mk⟩

/-- `Stream::to_string` (src/streams.rs lines 212-214): the lines joined
by `\n`. -/
def Stream.to_string (s : Stream) : String :=
  joinNL s.lines

/-- `Stream::cut` (src/streams.rs lines 91-99): split each line on the
delimiter and keep the field at 1-indexed position `field`
(`nth(field.saturating_sub(1))`; Lean `Nat` subtraction is saturating);
lines whose split has no such field are dropped by `filterMap`. -/
def Stream.cut (s : Stream) (field : Nat) (delimiter : String) : Stream :=
  ⟨s.lines.filterMap (fun line => (splitStr delimiter line).get? (field - 1))⟩

/--
The loop of `Stream::sed_block` (src/streams.rs lines 154-184) with its
two pieces of loop state: the in-block flag and the buffer of block lines
collected so far.  When a line closes the block, the whole buffered block
is joined with `\n`, the start marker text is replaced by `replacement`
everywhere in it, the end marker text is stripped everywhere in it, and
the result is pushed as a single element.  At the end of input a nonempty
buffer is appended unmodified (the fail-open path).
-/
def sedGo (sp ep repl : String) : List String → Bool → List String → List String
  | [], _, buffer => buffer
  | line :: rest, inb, buffer =>
    if !inb && containsSub sp.data line.data then
      sedGo sp ep repl rest true (buffer ++ [line])
    else if inb && containsSub ep.data line.data then
      strReplace (strReplace (joinNL (buffer ++ [line])) sp repl) ep ""
        :: sedGo sp ep repl rest false []
    else if inb then
      sedGo sp ep repl rest true (buffer ++ [line])
    else
      line :: sedGo sp ep repl rest false buffer

/-- `Stream::sed_block` (src/streams.rs lines 154-184). -/
def Stream.sed_block (s : Stream) (start_pattern end_pattern replacement : String) : Stream :=
  ⟨sedGo start_pattern end_pattern replacement s.lines false []⟩

/-! ## Job registry (src/os.rs, src/macros/jobs_events.rs) -/

/-- `CmdResult` (src/os.rs lines 12-17). -/
structure CmdResult where
  status : Int
  output : String
  error : String
  deriving DecidableEq

/-- `JobHandle` (src/os.rs lines 73-78).  The worker thread and its
one-shot channel are modelled by the `CmdResult` the worker sends on the
channel: `result` is the value a blocking receive delivers once the
worker finishes. -/
structure JobHandle where
  id : Nat
  command : String
  result : CmdResult
  deriving DecidableEq

/-- The global job registry and its monotonic counter (`JOBS` and
`JOB_COUNTER`, src/os.rs lines 80-84); the `HashMap` keyed by job id is
modelled by an association list with unique keys. -/
structure JobsState where
  jobs : List (Nat × JobHandle)
  counter : Nat
  deriving DecidableEq

/--
The `background:` arm of the `job!` macro (src/macros/jobs_events.rs
lines 6-28): increment the counter, take the new value as the job id,
spawn the worker, and register the handle under the id.  `res` is the
`CmdResult` that the spawned worker will send over the job's channel
(`run_cmd_with_status` of the command).  Returns the id.
-/
def background (cmd : String) (res : CmdResult) (st : JobsState) : Nat × JobsState :=
  let id := st.counter + 1
  (id, ⟨(id, ⟨id, cmd, res⟩) :: st.jobs, id⟩)

/--
`wait_on_job` without a timeout (src/os.rs lines 88-122): remove the job
from the registry; if it was present, the blocking channel receive
delivers the worker's `CmdResult` and the call returns it; if it was
absent, return the `Job {id} not found` error immediately.  Removal of
the unique entry with the given key is modelled by `List.filter`.
-/
def wait_on_job (job_id : Nat) (st : JobsState) : Except String CmdResult × JobsState :=
  match st.jobs.find? (fun p => p.1 == job_id) with
  | some p => (Except.ok p.2.result, ⟨st.jobs.filter (fun q => !(q.1 == job_id)), st.counter⟩)
  | none => (Except.error ("Job " ++ toString job_id ++ " not found"), st)

/-- The `wait:` arm of the `job!` macro (src/macros/jobs_events.rs lines
29-38): the exit status on success, `-1` on error. -/
def job_wait (job_id : Nat) (st : JobsState) : Int × JobsState :=
  match wait_on_job job_id st with
  | (Except.ok r, st2) => (r.status, st2)
  | (Except.error _, st2) => (-1, st2)

/-! ## Helper lemmas about the expansion scanners -/

lemma bracedGo_skip (lookup : String → String) :
    ∀ (n : Nat) (l : List Char), bracedGo lookup l n = bracedGo lookup (l.drop n) 0 := by
  intro n
  induction n with
  | zero => intro l; rfl
  | succ n ih =>
    intro l
    cases l with
    | nil => simp [bracedGo]
    | cons c rest => simpa [bracedGo] using ih rest

lemma simpleGo_skip (lookup : String → String) :
    ∀ (n : Nat) (l : List Char), simpleGo lookup l n = simpleGo lookup (l.drop n) 0 := by
  intro n
  induction n with
  | zero => intro l; rfl
  | succ n ih =>
    intro l
    cases l with
    | nil => simp [simpleGo]
    | cons c rest => simpa [simpleGo] using ih rest

lemma bracedPass_cons (lookup : String → String) {c : Char} (rest : List Char)
    (h : ¬ c = '$') :
    bracedPass lookup (c :: rest) = c :: bracedPass lookup rest := by
  simp [bracedPass, bracedGo, h]

lemma bracedPass_dollar_some (lookup : String → String) {rest : List Char}
    {name : String} {k : Nat} (h : dropBraced rest = some (name, k)) :
    bracedPass lookup ('$' :: rest)
      = (lookup name).data ++ bracedPass lookup (rest.drop k) := by
  simp [bracedPass, bracedGo, h, bracedGo_skip]

lemma bracedPass_dollar_none (lookup : String → String) {rest : List Char}
    (h : dropBraced rest = none) :
    bracedPass lookup ('$' :: rest) = '$' :: bracedPass lookup rest := by
  simp [bracedPass, bracedGo, h]

lemma simplePass_cons (lookup : String → String) {c : Char} (rest : List Char)
    (h : ¬ c = '$') :
    simplePass lookup (c :: rest) = c :: simplePass lookup rest := by
  simp [simplePass, simpleGo, h]

lemma simplePass_dollar_some (lookup : String → String) {rest : List Char}
    {name : String} {k : Nat} (h : dropSimple rest = some (name, k)) :
    simplePass lookup ('$' :: rest)
      = (lookup name).data ++ simplePass lookup (rest.drop k) := by
  simp [simplePass, simpleGo, h, simpleGo_skip]

lemma simplePass_dollar_none (lookup : String → String) {rest : List Char}
    (h : dropSimple rest = none) :
    simplePass lookup ('$' :: rest) = '$' :: simplePass lookup rest := by
  simp [simplePass, simpleGo, h]

lemma takeWhile_dropWhile_append {p : Char → Bool} :
    ∀ (name rest : List Char), (∀ c ∈ name, p c = true) →
      (∀ d, rest.head? = some d → p d = false) →
      (name ++ rest).takeWhile p = name ∧ (name ++ rest).dropWhile p = rest := by
  intro name
  induction name with
  | nil =>
    intro rest _ h2
    cases rest with
    | nil => simp
    | cons d rest2 =>
      have hd : p d = false := h2 d rfl
      simp [List.takeWhile_cons, List.dropWhile_cons, hd]
  | cons c name ih =>
    intro rest h1 h2
    have hc : p c = true := h1 c (List.mem_cons_self c name)
    have hrec := ih rest (fun x hx => h1 x (List.mem_cons_of_mem _ hx)) h2
    simp [List.takeWhile_cons, List.dropWhile_cons, hc, hrec.1, hrec.2]

lemma dropBraced_valid (c : Char) (cs rest : List Char)
    (hc : isIdentStart c = true) (hcs : ∀ x ∈ cs, isIdentChar x = true) :
    dropBraced (lbrace :: c :: (cs ++ rbrace :: rest))
      = some (String.mk (c :: cs), cs.length + 3) := by
  have hhead : ∀ d, (rbrace :: rest).head? = some d → isIdentChar d = false := by
    intro d hd
    injection hd with hd2
    subst hd2
    decide
  have hspan := takeWhile_dropWhile_append cs (rbrace :: rest) hcs hhead
  simp [dropBraced, hc, hspan.1, hspan.2]

lemma dropSimple_valid (d : Char) (cs rest : List Char)
    (hd : isIdentStart d = true) (hcs : ∀ x ∈ cs, isIdentChar x = true)
    (hrest : ∀ x, rest.head? = some x → isIdentChar x = false) :
    dropSimple (d :: (cs ++ rest)) = some (String.mk (d :: cs), cs.length + 1) := by
  have hspan := takeWhile_dropWhile_append cs rest hcs hrest
  simp [dropSimple, hd, hspan.1]

lemma drop_token_braced (c : Char) (cs rest : List Char) :
    (lbrace :: c :: (cs ++ rbrace :: rest)).drop (cs.length + 3) = rest := by
  have h : lbrace :: c :: (cs ++ rbrace :: rest)
      = (lbrace :: c :: cs ++ [rbrace]) ++ rest := by simp
  have h2 : (lbrace :: c :: cs ++ [rbrace]).length = cs.length + 3 := by
    simp
  rw [h, ← h2, List.drop_left]

lemma drop_token_simple (d : Char) (cs rest : List Char) :
    (d :: (cs ++ rest)).drop (cs.length + 1) = rest := by
  have h : d :: (cs ++ rest) = (d :: cs) ++ rest := rfl
  have h2 : (d :: cs).length = cs.length + 1 := by simp
  rw [h, ← h2, List.drop_left]

/-- A substituted value is spliced verbatim into the braced pass's output
and the scan continues after the token: the value itself is never
rescanned by the braced pass. -/
lemma bracedPass_splice (lookup : String → String) (c : Char) (cs rest : List Char)
    (hc : isIdentStart c = true) (hcs : ∀ x ∈ cs, isIdentChar x = true) :
    bracedPass lookup ('$' :: lbrace :: c :: (cs ++ rbrace :: rest))
      = (lookup (String.mk (c :: cs))).data ++ bracedPass lookup rest := by
  rw [bracedPass_dollar_some lookup (dropBraced_valid c cs rest hc hcs),
    drop_token_braced]

/-- A substituted value is spliced verbatim into the bare pass's output
and the scan continues after the token: the value itself is never
rescanned by the bare pass. -/
lemma simplePass_splice (lookup : String → String) (d : Char) (cs rest : List Char)
    (hd : isIdentStart d = true) (hcs : ∀ x ∈ cs, isIdentChar x = true)
    (hrest : ∀ x, rest.head? = some x → isIdentChar x = false) :
    simplePass lookup ('$' :: d :: (cs ++ rest))
      = (lookup (String.mk (d :: cs))).data ++ simplePass lookup rest := by
  rw [simplePass_dollar_some lookup (dropSimple_valid d cs rest hd hcs hrest)]
  rw [drop_token_simple d cs rest]

lemma Context.get_absent (ctx : Context) (key : String)
    (h : ctx.vars.find? (fun p => p.1 == key) = none) : ctx.get key = "" := by
  simp [Context.get, h]

/-! ## Helper lemmas about `sed_block` -/

lemma sedGo_pre (sp ep repl : String) :
    ∀ (pre rest : List String), (∀ l ∈ pre, containsSub sp.data l.data = false) →
      sedGo sp ep repl (pre ++ rest) false [] = pre ++ sedGo sp ep repl rest false [] := by
  intro pre
  induction pre with
  | nil => intro rest _; rfl
  | cons l pre ih =>
    intro rest h
    have hl : containsSub sp.data l.data = false := h l (List.mem_cons_self l pre)
    simp [sedGo, hl, ih rest (fun x hx => h x (List.mem_cons_of_mem _ hx))]

lemma sedGo_no_start (sp ep repl : String) (post : List String)
    (h : ∀ l ∈ post, containsSub sp.data l.data = false) :
    sedGo sp ep repl post false [] = post := by
  have h2 := sedGo_pre sp ep repl post [] h
  simpa [sedGo] using h2

lemma sedGo_open (sp ep repl : String) (s0 : String) (rest : List String)
    (hs : containsSub sp.data s0.data = true) :
    sedGo sp ep repl (s0 :: rest) false [] = sedGo sp ep repl rest true [s0] := by
  simp [sedGo, hs]

lemma sedGo_inblock (sp ep repl : String) :
    ∀ (mid rest buf : List String), (∀ l ∈ mid, containsSub ep.data l.data = false) →
      sedGo sp ep repl (mid ++ rest) true buf = sedGo sp ep repl rest true (buf ++ mid) := by
  intro mid
  induction mid with
  | nil => intro rest buf _; simp
  | cons l mid ih =>
    intro rest buf h
    have hl : containsSub ep.data l.data = false := h l (List.mem_cons_self l mid)
    have h2 := ih rest (buf ++ [l]) (fun x hx => h x (List.mem_cons_of_mem _ hx))
    simp [sedGo, hl, h2]

lemma sedGo_close (sp ep repl : String) (e0 : String) (post buf : List String)
    (he : containsSub ep.data e0.data = true) :
    sedGo sp ep repl (e0 :: post) true buf
      = strReplace (strReplace (joinNL (buf ++ [e0])) sp repl) ep ""
          :: sedGo sp ep repl post false [] := by
  simp [sedGo, he]

lemma sedGo_failopen (sp ep repl : String) :
    ∀ (post buf : List String), (∀ l ∈ post, containsSub ep.data l.data = false) →
      sedGo sp ep repl post true buf = buf ++ post := by
  intro post
  induction post with
  | nil => intro buf _; simp [sedGo]
  | cons l post ih =>
    intro buf h
    have hl : containsSub ep.data l.data = false := h l (List.mem_cons_self l post)
    simp [sedGo, hl, ih (buf ++ [l]) (fun x hx => h x (List.mem_cons_of_mem _ hx))]

/--
C3: `sed_block` is fail-open.  If some line contains the start marker
(the first such line being `s0`, after marker-free prefix `pre`) and no
line after it contains the end marker, the output is the input: every
original line is retained, in order and unmodified, including the
literal unreplaced start-marker text in `s0`.
-/
theorem sed_block_fail_open (sp ep repl : String) (pre post : List String) (s0 : String)
    (hpre : ∀ l ∈ pre, containsSub sp.data l.data = false)
    (hs0 : containsSub sp.data s0.data = true)
    (hpost : ∀ l ∈ post, containsSub ep.data l.data = false) :
    Stream.sed_block ⟨pre ++ s0 :: post⟩ sp ep repl = ⟨pre ++ s0 :: post⟩ := by
  unfold Stream.sed_block
  rw [sedGo_pre sp ep repl pre (s0 :: post) hpre, sedGo_open sp ep repl s0 post hs0,
    sedGo_failopen sp ep repl post [s0] hpost]
  simp

/-- Witness for `sed_block_fail_open` at a concrete input. -/
theorem sed_block_fail_open_witness :
    Stream.sed_block ⟨["a", "START x", "b"]⟩ "START" "END" "R"
      = ⟨["a", "START x", "b"]⟩ :=
  sed_block_fail_open "START" "END" "R" ["a"] ["b"] "START x"
    (by decide) (by decide) (by decide)

/--
C2 counterexample: the claim includes the case where the end-marker line
is the start-marker line itself ("followed at-or-later").  On
`["a", "S E", "b"]` with start marker `"S"`, end marker `"E"` and
replacement `"R"`, the line `"S E"` contains both markers, so the claim
asserts the block `["S E"]` is transformed (to `"R "`); the code never
tests the opening line for the end marker, the block stays open, never
closes, and the output is the input with the start-marker text still
present and unreplaced.
-/
theorem sed_block_same_line_counterexample :
    (Stream.sed_block ⟨["a", "S E", "b"]⟩ "S" "E" "R").lines = ["a", "S E", "b"]
    ∧ containsSub "S".data "S E".data = true
    ∧ containsSub "E".data "S E".data = true
    ∧ strReplace (strReplace "S E" "S" "R") "E" "" = "R "
    ∧ ("S E" : String) ≠ "R " := by decide

/--
C2 (amended): if the first line containing the start marker is followed
strictly later by a line containing the end marker, and no line after
that closing line contains the start marker, then `sed_block` leaves all
lines outside the block untouched and replaces the block by a single
element: the newline-join of the block's lines with every occurrence of
the start-marker text replaced by the replacement and every occurrence
of the end-marker text stripped.
-/
theorem sed_block_single_block (sp ep repl : String) (pre mid post : List String)
    (s0 e0 : String)
    (hpre : ∀ l ∈ pre, containsSub sp.data l.data = false)
    (hs0 : containsSub sp.data s0.data = true)
    (hmid : ∀ l ∈ mid, containsSub ep.data l.data = false)
    (he0 : containsSub ep.data e0.data = true)
    (hpost : ∀ l ∈ post, containsSub sp.data l.data = false) :
    (Stream.sed_block ⟨pre ++ s0 :: (mid ++ e0 :: post)⟩ sp ep repl).lines
      = pre ++ strReplace (strReplace (joinNL (s0 :: (mid ++ [e0]))) sp repl) ep ""
          :: post := by
  unfold Stream.sed_block
  rw [sedGo_pre sp ep repl pre _ hpre, sedGo_open sp ep repl s0 _ hs0,
    sedGo_inblock sp ep repl mid (e0 :: post) [s0] hmid,
    sedGo_close sp ep repl e0 post ([s0] ++ mid) he0,
    sedGo_no_start sp ep repl post hpost]
  simp

/-- Witness for `sed_block_single_block` at a concrete input. -/
theorem sed_block_single_block_witness :
    (Stream.sed_block ⟨["p", "aSb", "m", "cEd", "q"]⟩ "S" "E" "R").lines
      = ["p"] ++ strReplace (strReplace (joinNL ("aSb" :: (["m"] ++ ["cEd"]))) "S" "R") "E" ""
          :: ["q"] :=
  sed_block_single_block "S" "E" "R" ["p"] ["m"] ["q"] "aSb" "cEd"
    (by decide) (by decide) (by decide) (by decide) (by decide)

/-! ## Token-free strings and the expansion claim theorems -/

/--
A character list is token-free when no `$` in it begins a braced or a
bare variable token.  Both passes of `expand` leave a token-free string
unchanged.
-/
def tokenFree : List Char → Bool
  | [] => true
  | c :: rest =>
    if c = '$' then
      (dropBraced rest).isNone && (dropSimple rest).isNone && tokenFree rest
    else tokenFree rest

lemma bracedPass_of_tokenFree (lookup : String → String) :
    ∀ (s : List Char), tokenFree s = true → bracedPass lookup s = s := by
  intro s
  induction s with
  | nil => intro _; rfl
  | cons c rest ih =>
    intro h
    by_cases hc : c = '$'
    · subst hc
      simp [tokenFree, Option.isNone_iff_eq_none] at h
      obtain ⟨⟨hb, hs⟩, ht⟩ := h
      rw [bracedPass_dollar_none lookup hb, ih ht]
    · simp only [tokenFree, if_neg hc] at h
      rw [bracedPass_cons lookup rest hc, ih h]

lemma simplePass_of_tokenFree (lookup : String → String) :
    ∀ (s : List Char), tokenFree s = true → simplePass lookup s = s := by
  intro s
  induction s with
  | nil => intro _; rfl
  | cons c rest ih =>
    intro h
    by_cases hc : c = '$'
    · subst hc
      simp [tokenFree, Option.isNone_iff_eq_none] at h
      obtain ⟨⟨hb, hs⟩, ht⟩ := h
      rw [simplePass_dollar_none lookup hs, ih ht]
    · simp only [tokenFree, if_neg hc] at h
      rw [simplePass_cons lookup rest hc, ih h]

lemma expand_of_tokenFree (ctx : Context) (s : String) (h : tokenFree s.data = true) :
    ctx.expand s = s := by
  unfold Context.expand
  rw [bracedPass_of_tokenFree ctx.get s.data h, simplePass_of_tokenFree ctx.get s.data h]

/--
C7 counterexample: the map `A ↦ "B"` stores no value containing `$`,
yet expansion is not idempotent on the template `"$$A"`: the first
expand yields `"$B"` (the literal `$` survives and `$A` becomes `"B"`
right after it), and a second expand consumes the freshly formed `$B`
token, yielding `""`.
-/
theorem expand_idem_counterexample :
    ('$' ∉ "B".data)
    ∧ Context.expand ⟨[("A", "B")]⟩ "$$A" = "$B"
    ∧ Context.expand ⟨[("A", "B")]⟩ (Context.expand ⟨[("A", "B")]⟩ "$$A")
        ≠ Context.expand ⟨[("A", "B")]⟩ "$$A" := by decide

/--
C7 (amended): `expand (expand T) = expand T` for every context and every
template whose expansion is token-free (no `$` in `expand T` begins a
braced or bare variable token).  The condition that no stored value
contains `$` is not sufficient; and maps whose values do contain `$` can
likewise be non-idempotent, as with the map `A ↦ "$"` on the template
`"$A{A}"`, whose expansion `"${A}"` contains a fresh braced token.
-/
theorem expand_idem_of_token_free :
    (∀ (ctx : Context) (t : String), tokenFree (ctx.expand t).data = true →
        ctx.expand (ctx.expand t) = ctx.expand t)
    ∧ Context.expand ⟨[("A", "$")]⟩ (Context.expand ⟨[("A", "$")]⟩ "$A\x7bA\x7d")
        ≠ Context.expand ⟨[("A", "$")]⟩ "$A\x7bA\x7d" := by
  refine ⟨fun ctx t h => expand_of_tokenFree ctx (ctx.expand t) h, by decide⟩

/-- Witness for `expand_idem_of_token_free` at a concrete input. -/
theorem expand_idem_of_token_free_witness :
    Context.expand ⟨[("NAME", "world")]⟩
        (Context.expand ⟨[("NAME", "world")]⟩ "hello $NAME")
      = Context.expand ⟨[("NAME", "world")]⟩ "hello $NAME" :=
  expand_idem_of_token_free.1 ⟨[("NAME", "world")]⟩ "hello $NAME" (by decide)

/--
C1 counterexample: with the map `A ↦ "$B", B ↦ "x"`, the braced pass
substitutes the value `"$B"` for the token in the template `"${A}"`, and
the bare pass — which runs over the braced pass's whole output — then
expands that inserted `$B` to `"x"`.  A substituted value containing `$`
is therefore re-scanned (by the later pass) within the same expand call:
the result is `"x"`, not the verbatim `"$B"` the claim requires.
-/
theorem expand_value_rescanned_counterexample :
    Context.expand ⟨[("A", "$B"), ("B", "x")]⟩ "$\x7bA\x7d" = "x"
    ∧ ("x" : String) ≠ "$B" := by decide

/--
C1 (amended): expansion is exactly two linear passes (`expand` is the
bare pass composed with the braced pass, both over one context
snapshot).  Within each single pass a substituted value is spliced into
the output verbatim and the scan continues strictly after the token, so
no pass rescans the values it substituted itself — in particular values
substituted by the final bare pass are never re-scanned at all.  However
the bare pass runs over the braced pass's entire output, so a bare
`$name` token contained in a value substituted by the braced pass is
expanded by the bare pass, as the map `A ↦ "$B", B ↦ "x"` on `"${A}"`
shows.
-/
theorem expand_two_linear_passes :
    (∀ (lookup : String → String) (c : Char) (cs rest : List Char),
        isIdentStart c = true → (∀ x ∈ cs, isIdentChar x = true) →
        bracedPass lookup ('$' :: lbrace :: c :: (cs ++ rbrace :: rest))
          = (lookup (String.mk (c :: cs))).data ++ bracedPass lookup rest)
    ∧ (∀ (lookup : String → String) (d : Char) (cs rest : List Char),
        isIdentStart d = true → (∀ x ∈ cs, isIdentChar x = true) →
        (∀ x, rest.head? = some x → isIdentChar x = false) →
        simplePass lookup ('$' :: d :: (cs ++ rest))
          = (lookup (String.mk (d :: cs))).data ++ simplePass lookup rest)
    ∧ (∀ (ctx : Context) (t : String),
        ctx.expand t = String.mk (simplePass ctx.get (bracedPass ctx.get t.data)))
    ∧ Context.expand ⟨[("A", "$B"), ("B", "x")]⟩ "$\x7bA\x7d" = "x" :=
  ⟨fun lookup c cs rest hc hcs => bracedPass_splice lookup c cs rest hc hcs,
   fun lookup d cs rest hd hcs hrest => simplePass_splice lookup d cs rest hd hcs hrest,
   fun _ _ => rfl,
   by decide⟩

/-- Witness for `expand_two_linear_passes` at a concrete input whose
substituted value contains `$`. -/
theorem expand_two_linear_passes_witness :
    bracedPass (Context.get ⟨[("A", "$B")]⟩) ('$' :: lbrace :: 'A' :: ([] ++ rbrace :: []))
      = (Context.get ⟨[("A", "$B")]⟩ (String.mk ('A' :: []))).data
          ++ bracedPass (Context.get ⟨[("A", "$B")]⟩) [] :=
  expand_two_linear_passes.1 (Context.get ⟨[("A", "$B")]⟩) 'A' [] []
    (by decide) (by simp)

/--
C4: `expand` is the bare pass composed after the braced pass over one
context snapshot (so the braced pass completes in full before the bare
pass starts); a braced or bare token whose name is absent from the map
is replaced by the empty string in the respective pass; and, as the spec
requires, with the context `NAME ↦ "world"` the template
`"hello ${NAME}, hello $NAME"` expands to `"hello world, hello world"`.
-/
theorem expand_two_pass_empty_default :
    (∀ (ctx : Context) (t : String),
        ctx.expand t = String.mk (simplePass ctx.get (bracedPass ctx.get t.data)))
    ∧ (∀ (ctx : Context) (c : Char) (cs rest : List Char),
        isIdentStart c = true → (∀ x ∈ cs, isIdentChar x = true) →
        ctx.vars.find? (fun p => p.1 == String.mk (c :: cs)) = none →
        bracedPass ctx.get ('$' :: lbrace :: c :: (cs ++ rbrace :: rest))
          = bracedPass ctx.get rest)
    ∧ (∀ (ctx : Context) (d : Char) (cs rest : List Char),
        isIdentStart d = true → (∀ x ∈ cs, isIdentChar x = true) →
        (∀ x, rest.head? = some x → isIdentChar x = false) →
        ctx.vars.find? (fun p => p.1 == String.mk (d :: cs)) = none →
        simplePass ctx.get ('$' :: d :: (cs ++ rest)) = simplePass ctx.get rest)
    ∧ Context.expand ⟨[("NAME", "world")]⟩ "hello $\x7bNAME\x7d, hello $NAME"
        = "hello world, hello world" := by
  refine ⟨fun ctx t => rfl, ?_, ?_, by decide⟩
  · intro ctx c cs rest hc hcs habs
    rw [bracedPass_splice ctx.get c cs rest hc hcs, Context.get_absent ctx _ habs]
    rfl
  · intro ctx d cs rest hd hcs hrest habs
    rw [simplePass_splice ctx.get d cs rest hd hcs hrest, Context.get_absent ctx _ habs]
    rfl

/-- Witness for `expand_two_pass_empty_default` at a concrete input. -/
theorem expand_two_pass_empty_default_witness :
    bracedPass (Context.get ⟨[("NAME", "world")]⟩)
        ('$' :: lbrace :: 'X' :: ([] ++ rbrace :: []))
      = bracedPass (Context.get ⟨[("NAME", "world")]⟩) [] :=
  expand_two_pass_empty_default.2.1 ⟨[("NAME", "world")]⟩ 'X' [] []
    (by decide) (by simp) (by decide)

/--
C6: `expand` is a total function — it returns a string for every context
and every input, with no failure path — and a malformed `${` that does
not begin a well-formed braced token (in particular one never closed by
`}`) is passed through as literal text by both passes; `lbrace` is the
left-brace character.
-/
theorem expand_malformed_literal :
    (∀ (lookup : String → String) (rest : List Char),
        dropBraced (lbrace :: rest) = none →
        bracedPass lookup ('$' :: lbrace :: rest)
          = '$' :: lbrace :: bracedPass lookup rest)
    ∧ (∀ (lookup : String → String) (rest : List Char),
        simplePass lookup ('$' :: lbrace :: rest)
          = '$' :: lbrace :: simplePass lookup rest)
    ∧ Context.expand ⟨[("A", "x")]⟩ "$\x7bA $\x7bB" = "$\x7bA $\x7bB" := by
  refine ⟨?_, ?_, by decide⟩
  · intro lookup rest h
    rw [bracedPass_dollar_none lookup h, bracedPass_cons lookup rest (by decide)]
  · intro lookup rest
    have hfalse : isIdentStart lbrace = false := by decide
    have h : dropSimple (lbrace :: rest) = none := by simp [dropSimple, hfalse]
    rw [simplePass_dollar_none lookup h, simplePass_cons lookup rest (by decide)]

/-- Witness for `expand_malformed_literal` at a concrete input. -/
theorem expand_malformed_literal_witness :
    bracedPass (fun _ => "v") ('$' :: lbrace :: 'A' :: [])
      = '$' :: lbrace :: bracedPass (fun _ => "v") ('A' :: []) :=
  expand_malformed_literal.1 (fun _ => "v") ('A' :: []) (by decide)

/-! ## Round-trip lemmas for `from_string` and `to_string` -/

lemma String.data_append_eq (a b : String) : (a ++ b).data = a.data ++ b.data := rfl

lemma splitNL_ne_nil (s : List Char) : splitNL s ≠ [] := by
  induction s with
  | nil => simp [splitNL]
  | cons c rest ih =>
    by_cases hc : c = '\n'
    · simp [splitNL, hc]
    · cases hps : splitNL rest with
      | nil => exact absurd hps ih
      | cons p ps => simp [splitNL, hc, hps]

lemma splitNL_no_newline : ∀ (l : List Char), '\n' ∉ l → splitNL l = [l] := by
  intro l
  induction l with
  | nil => intro _; rfl
  | cons c rest ih =>
    intro h
    have hc : ¬ c = '\n' := fun hh => h (by simp [hh])
    have hrest : '\n' ∉ rest := fun hm => h (List.mem_cons_of_mem _ hm)
    simp [splitNL, hc, ih hrest]

lemma splitNL_append : ∀ (l t : List Char), '\n' ∉ l →
    splitNL (l ++ '\n' :: t) = l :: splitNL t := by
  intro l
  induction l with
  | nil => intro t _; simp [splitNL]
  | cons c rest ih =>
    intro t h
    have hc : ¬ c = '\n' := fun hh => h (by simp [hh])
    have hrest : '\n' ∉ rest := fun hm => h (List.mem_cons_of_mem _ hm)
    simp [splitNL, hc, ih t hrest]

lemma stripCR_of_no_cr (l : List Char) (h : l.getLast? ≠ some '\r') :
    stripCR l = l := by
  simp [stripCR, h]

lemma rustLines_cons (l t : List Char) (hnl : '\n' ∉ l)
    (hcr : l.getLast? ≠ some '\r') :
    rustLines (l ++ '\n' :: t) = l :: rustLines t := by
  unfold rustLines
  rw [splitNL_append l t hnl]
  have hstrip : stripCR l = l := stripCR_of_no_cr l hcr
  cases hps : splitNL t with
  | nil => exact absurd hps (splitNL_ne_nil t)
  | cons p ps =>
    cases hlast : (p :: ps).getLast? with
    | none => simp at hlast
    | some last =>
      by_cases hl : last = []
      · subst hl
        simp [List.getLast?_cons_cons, hlast, hstrip]
      · simp [List.getLast?_cons_cons, hlast, hstrip, hl]

lemma rustLines_joinNL : ∀ (ls : List String),
    (∀ l ∈ ls, '\n' ∉ l.data) →
    (∀ l ∈ ls.dropLast, l.data.getLast? ≠ some '\r') →
    ls.getLast? ≠ some "" →
    rustLines (joinNL ls).data = ls.map String.data := by
  intro ls
  induction ls with
  | nil => intro _ _ _; rfl
  | cons l ls ih =>
    intro h1 h2 h3
    cases ls with
    | nil =>
      have hnl : '\n' ∉ l.data := h1 l (by simp)
      have hne : l ≠ "" := by
        intro he
        exact h3 (by simp [he])
      have hdata : l.data ≠ [] := by
        intro he
        apply hne
        have h4 : l = String.mk l.data := rfl
        rw [h4, he]
      show rustLines l.data = [l.data]
      unfold rustLines
      rw [splitNL_no_newline l.data hnl]
      simp [hdata]
    | cons l2 ls2 =>
      have hnl : '\n' ∉ l.data := h1 l (by simp)
      have hcr : l.data.getLast? ≠ some '\r' := h2 l (by simp)
      have hjoin : (joinNL (l :: l2 :: ls2)).data
          = l.data ++ '\n' :: (joinNL (l2 :: ls2)).data := by
        show (l ++ "\n" ++ joinNL (l2 :: ls2)).data = _
        simp [String.data_append_eq]
      rw [hjoin, rustLines_cons l.data _ hnl hcr]
      rw [ih (fun x hx => h1 x (List.mem_cons_of_mem _ hx))
        (fun x hx => h2 x (by simp [List.dropLast] at hx ⊢; exact Or.inr hx))
        (by simpa [List.getLast?_cons_cons] using h3)]
      rfl

/--
C8: round-trip.  For every string that is the LF-join of a list of lines
in which no line contains a newline, no line other than possibly the last
ends in a carriage return (so the string has no CRLF breaks), and the
last line is not empty (so the string has no trailing newline),
`Stream::from_string` followed by `Stream::to_string` returns the string
unchanged.
-/
theorem from_string_to_string_roundtrip (ls : List String)
    (h1 : ∀ l ∈ ls, '\n' ∉ l.data)
    (h2 : ∀ l ∈ ls.dropLast, l.data.getLast? ≠ some '\r')
    (h3 : ls.getLast? ≠ some "") :
    (Stream.from_string (joinNL ls)).to_string = joinNL ls := by
  show joinNL ((rustLines (joinNL ls).data).map String.mk) = joinNL ls
  rw [rustLines_joinNL ls h1 h2 h3, List.map_map]
  have hid : (String.mk ∘ String.data) = id := funext fun l => rfl
  rw [hid, List.map_id]

/-- Witness for `from_string_to_string_roundtrip` at a concrete input. -/
theorem from_string_to_string_roundtrip_witness :
    (Stream.from_string (joinNL ["ab", "c"])).to_string = joinNL ["ab", "c"] :=
  from_string_to_string_roundtrip ["ab", "c"] (by decide) (by decide) (by decide)

/-! ## `cut` and the job registry claims -/

lemma splitGo_ne_nil (sep : List Char) : ∀ (l : List Char) (n : Nat),
    splitGo sep l n ≠ [] := by
  intro l
  induction l with
  | nil => intro n; cases n <;> simp [splitGo]
  | cons c rest ih =>
    intro n
    cases n with
    | zero =>
      by_cases hp : sep.isPrefixOf (c :: rest)
      · simp [splitGo, hp]
      · cases hsp : splitGo sep rest 0 with
        | nil => exact absurd hsp (ih 0)
        | cons p ps => simp [splitGo, hp, hsp]
    | succ n => simpa [splitGo] using ih n

lemma splitStr_ne_nil (sep s : String) : splitStr sep s ≠ [] := by
  unfold splitStr
  by_cases h : sep.data.isEmpty
  · simp [h]
  · simp [h, splitGo_ne_nil]

/--
C9: `cut(field, delimiter)` with `field ≥ 1` splits each line on the
delimiter and keeps exactly the field at 1-indexed position `field` of
every line whose split has at least `field` fields; every line with
fewer fields is dropped from the output, not padded; and
`cut(2, ",")` maps the line `"x,y,z"` to `"y"` and drops the line
`"x"`.
-/
theorem cut_field_semantics (ls : List String) (f : Nat) (d : String) (hf : 1 ≤ f) :
    ((Stream.cut ⟨ls⟩ f d).lines
      = ls.filterMap (fun l =>
          if h : f ≤ (splitStr d l).length
          then some ((splitStr d l).get ⟨f - 1, by omega⟩)
          else none))
    ∧ (∀ l : String, (splitStr d l).length < f → (splitStr d l).get? (f - 1) = none)
    ∧ ((Stream.cut ⟨["x,y,z", "x"]⟩ 2 ",").lines = ["y"]) := by
  refine ⟨?_, ?_, by decide⟩
  · show List.filterMap _ ls = List.filterMap _ ls
    apply List.filterMap_congr
    intro l _
    by_cases h : f ≤ (splitStr d l).length
    · rw [dif_pos h, List.get?_eq_get (by omega)]
    · rw [dif_neg h, List.get?_eq_none.2 (by omega)]
  · intro l h
    exact List.get?_eq_none.2 (by omega)

/-- Witness for `cut_field_semantics` at the spec's example input. -/
theorem cut_field_semantics_witness :
    (Stream.cut ⟨["x,y,z", "x"]⟩ 2 ",").lines = ["y"] :=
  (cut_field_semantics ["x,y,z", "x"] 2 "," (by decide)).2.2

/--
C10: `cut` with `field = 0` does not panic (the model is a total
function) and does not drop lines because of the out-of-range index: the
index saturates (`saturating_sub`, Lean `Nat` subtraction), so
`cut 0 d` and `cut 1 d` are the same function, and both keep the first
delimiter-separated field of every line (a split is never empty, so no
line is dropped).
-/
theorem cut_zero_saturates :
    (∀ (s : Stream) (d : String), Stream.cut s 0 d = Stream.cut s 1 d)
    ∧ (∀ (s : Stream) (d : String),
        (Stream.cut s 0 d).lines = s.lines.map (fun l => (splitStr d l).headD "")) := by
  constructor
  · intro s d; rfl
  · intro s d
    show List.filterMap (fun l => (splitStr d l).get? (0 - 1)) s.lines = _
    have hpt : ∀ l : String,
        (splitStr d l).get? (0 - 1) = some ((splitStr d l).headD "") := by
      intro l
      cases hsp : splitStr d l with
      | nil => exact absurd hsp (splitStr_ne_nil d l)
      | cons p ps => rfl
    induction s.lines with
    | nil => rfl
    | cons l rest ih => rw [List.filterMap_cons, hpt l, List.map_cons, ih]

lemma find?_filter_ne (id : Nat) : ∀ (l : List (Nat × JobHandle)),
    (l.filter (fun q => !(q.1 == id))).find? (fun p => p.1 == id) = none := by
  intro l
  induction l with
  | nil => rfl
  | cons p l ih =>
    by_cases hp : p.1 = id
    · simp [List.filter_cons, hp, ih]
    · simp [List.filter_cons, List.find?_cons, hp, ih]

/--
C5: `wait` is single-consumer.  The first `wait` on the id returned by
`background` finds the job, removes it from the registry, and the
blocking receive returns the worker's result, whose integer exit status
the `job!(wait: ..)` macro returns; after that removal the id is no
longer registered, so a second `wait` on the same id — and likewise a
`wait` on any id absent from the registry — returns the
`Job {id} not found` error immediately and leaves the registry
unchanged, rather than blocking or panicking.
-/
theorem wait_single_consumer (cmd : String) (res : CmdResult) (st : JobsState) :
    ((wait_on_job (background cmd res st).1 (background cmd res st).2).1 = Except.ok res)
    ∧ ((job_wait (background cmd res st).1 (background cmd res st).2).1 = res.status)
    ∧ ((wait_on_job (background cmd res st).1 (background cmd res st).2).2.jobs.find?
          (fun p => p.1 == (background cmd res st).1) = none)
    ∧ ((wait_on_job (background cmd res st).1
          (wait_on_job (background cmd res st).1 (background cmd res st).2).2).1
        = Except.error ("Job " ++ toString (background cmd res st).1 ++ " not found"))
    ∧ (∀ (j : Nat) (st2 : JobsState), st2.jobs.find? (fun p => p.1 == j) = none →
        (wait_on_job j st2).1 = Except.error ("Job " ++ toString j ++ " not found")
          ∧ (wait_on_job j st2).2 = st2) := by
  have hfind : ((background cmd res st).2.jobs).find?
      (fun p => p.1 == (background cmd res st).1)
      = some ((background cmd res st).1,
              ⟨(background cmd res st).1, cmd, res⟩) := by
    simp [background, List.find?_cons]
  refine ⟨?_, ?_, ?_, ?_, ?_⟩
  · simp [wait_on_job, hfind]
  · simp [job_wait, wait_on_job, hfind]
  · simp [wait_on_job, hfind, find?_filter_ne]
  · have hw1 : wait_on_job (background cmd res st).1 (background cmd res st).2
        = (Except.ok res,
           ⟨(background cmd res st).2.jobs.filter
              (fun q => !(q.1 == (background cmd res st).1)),
            (background cmd res st).2.counter⟩) := by
      simp [wait_on_job, hfind]
    rw [hw1]
    simp only [wait_on_job, find?_filter_ne]
  · intro j st2 h
    simp [wait_on_job, h]

/-- Witness for `wait_single_consumer` at a concrete input. -/
theorem wait_single_consumer_witness :
    (wait_on_job 7 ⟨[], 3⟩).1 = Except.error ("Job " ++ toString 7 ++ " not found")
      ∧ (wait_on_job 7 ⟨[], 3⟩).2 = (⟨[], 3⟩ : JobsState) :=
  (wait_single_consumer "true" ⟨0, "", ""⟩ ⟨[], 0⟩).2.2.2.2 7 ⟨[], 3⟩ (by decide)

end RSB
